import Mathlib

set_option autoImplicit false

namespace OpenmlsDart

/-! Shallow embedding of the storage subsystem of the `openmls_dart` repository:
the snapshot-and-diff cache (`src/rust/src/snapshot_storage.rs`), the composite
key codec shared by `snapshot_storage.rs` and `dart_storage.rs`, and the two
backends of the encrypted physical store (`src/rust/src/encrypted_db.rs`).
Bytes are modelled as natural numbers, byte strings as lists, and the Rust
`HashMap`s as association lists (looked up by exact key equality, which is the
observable behaviour of a `HashMap<Vec<u8>, Vec<u8>>`). -/

abbrev Bytes := List Nat

abbrev KVMap := List (Bytes × Bytes)

/-- Exact-key lookup, the model of `HashMap::get`. -/
def lookup : KVMap → Bytes → Option Bytes
  | [], _ => none
  | (k', v) :: rest, k => if k' = k then some v else lookup rest k

/-- The keys of a map, the model of `HashMap::keys`. -/
def keys (m : KVMap) : List Bytes :=
  m.map Prod.fst

/-- A well-formed map image of a Rust `HashMap`: no key occurs twice. -/
abbrev NodupKeys (m : KVMap) : Prop :=
  (keys m).Nodup

/-- `HashMap::insert`: replace the binding if the key is present, else add it. -/
def insertKV : KVMap → Bytes → Bytes → KVMap
  | [], k, v => [(k, v)]
  | (k', v') :: rest, k, v =>
      if k' = k then (k, v) :: rest else (k', v') :: insertKV rest k v

/-- `HashMap::remove`: drop the binding of the key if present. -/
def eraseKV : KVMap → Bytes → KVMap
  | [], _ => []
  | (k', v') :: rest, k =>
      if k' = k then rest else (k', v') :: eraseKV rest k

/-! ### Snapshot cache (`SnapshotStorageProvider`, snapshot_storage.rs) -/

/-- `SnapshotStorageProvider`: the pair of maps `initial` (seed, never mutated)
and `current` (mutated by the protocol engine). -/
structure SnapshotStorageProvider where
  initial : KVMap
  current : KVMap
deriving DecidableEq

/-- `StorageUpdates` from encrypted_db.rs: the changeset of a snapshot. -/
structure StorageUpdates where
  upserts : KVMap
  deletes : List Bytes
deriving DecidableEq

/-- One entry of `current` is kept as an upsert by `into_updates` unless
`initial` holds the same key with the same value (the `Some(old) if
old == value` arm in the source skips, every other arm upserts). -/
def changedEntry (ini : KVMap) (kv : Bytes × Bytes) : Bool :=
  match lookup ini kv.1 with
  | some old => decide (old ≠ kv.2)
  | none => true

/-- `SnapshotStorageProvider::into_updates`: one pass over `current` collecting
new or changed entries as upserts, one pass over `initial`'s keys collecting
keys absent from `current` as deletes. -/
def into_updates (s : SnapshotStorageProvider) : StorageUpdates :=
  { upserts := s.current.filter (changedEntry s.initial)
  , deletes := (keys s.initial).filter (fun k => (lookup s.current k).isNone) }

/-- `SnapshotStorageProvider::from_entries`: collect the loaded entries into a
`HashMap` (later bindings of a repeated key overwrite earlier ones) and clone
it, so `initial` and `current` start identical. -/
def from_entries (entries : KVMap) : SnapshotStorageProvider :=
  let m := entries.foldl (fun acc kv => insertKV acc kv.1 kv.2) []
  { initial := m, current := m }

/-! ### Basic lookup lemmas -/

theorem lookup_eq_some_of_mem {m : KVMap} {k v : Bytes}
    (hm : NodupKeys m) (h : (k, v) ∈ m) : lookup m k = some v := by
  induction m with
  | nil => cases h
  | cons hd tl ih =>
      obtain ⟨k', v'⟩ := hd
      rcases List.mem_cons.mp h with h | h
      · cases h
        simp [lookup]
      · have hk : k' ≠ k := by
          intro hkk
          subst hkk
          have : k' ∈ keys tl := List.mem_map_of_mem Prod.fst h
          exact (List.nodup_cons.mp hm).1 this
        have htl : NodupKeys tl := (List.nodup_cons.mp hm).2
        simp [lookup, hk, ih htl h]

theorem mem_of_lookup_eq_some {m : KVMap} {k v : Bytes}
    (h : lookup m k = some v) : (k, v) ∈ m := by
  induction m with
  | nil => simp [lookup] at h
  | cons hd tl ih =>
      obtain ⟨k', v'⟩ := hd
      by_cases hk : k' = k
      · subst hk
        simp [lookup] at h
        subst h
        exact List.mem_cons_self _ _
      · simp [lookup, hk] at h
        exact List.mem_cons_of_mem _ (ih h)

theorem lookup_isSome_iff_mem_keys {m : KVMap} {k : Bytes} :
    (lookup m k).isSome ↔ k ∈ keys m := by
  induction m with
  | nil => simp [lookup, keys]
  | cons hd tl ih =>
      obtain ⟨k', v'⟩ := hd
      by_cases hk : k' = k
      · subst hk
        simp [lookup, keys]
      · simp [lookup, keys, hk, ih]
        intro hkk
        exact absurd hkk.symm hk

theorem lookup_eq_none_iff_not_mem_keys {m : KVMap} {k : Bytes} :
    lookup m k = none ↔ k ∉ keys m := by
  rw [← lookup_isSome_iff_mem_keys]
  cases lookup m k <;> simp

theorem keys_nil : keys [] = [] := rfl

theorem keys_cons (k v : Bytes) (m : KVMap) : keys ((k, v) :: m) = k :: keys m := rfl

theorem changedEntry_eq_true_iff {ini : KVMap} {kv : Bytes × Bytes} :
    changedEntry ini kv = true ↔ lookup ini kv.1 ≠ some kv.2 := by
  unfold changedEntry
  cases h : lookup ini kv.1 <;> simp

/-- Number of occurrences of `a` in `l` (instance-independent count). -/
def countOcc {α : Type} [DecidableEq α] (a : α) (l : List α) : Nat :=
  (l.filter (fun x => decide (x = a))).length

theorem countOcc_nil {α : Type} [DecidableEq α] (a : α) : countOcc a [] = 0 := rfl

theorem countOcc_cons {α : Type} [DecidableEq α] (a x : α) (l : List α) :
    countOcc a (x :: l) = (if x = a then 1 else 0) + countOcc a l := by
  by_cases h : x = a <;> simp [countOcc, h, Nat.add_comm]

theorem countOcc_eq_zero_of_not_mem {α : Type} [DecidableEq α] {a : α} {l : List α}
    (h : a ∉ l) : countOcc a l = 0 := by
  induction l with
  | nil => rfl
  | cons x l ih =>
      have hx : x ≠ a := fun hxa => h (hxa ▸ List.mem_cons_self x l)
      rw [countOcc_cons, if_neg hx, ih (fun hm => h (List.mem_cons_of_mem x hm))]

theorem countOcc_eq_one_of_mem {α : Type} [DecidableEq α] {a : α} {l : List α}
    (hnd : l.Nodup) (hm : a ∈ l) : countOcc a l = 1 := by
  induction l with
  | nil => cases hm
  | cons x l ih =>
      rcases List.mem_cons.mp hm with h | h
      · subst h
        rw [countOcc_cons, if_pos rfl,
          countOcc_eq_zero_of_not_mem (List.nodup_cons.mp hnd).1]
      · have hx : x ≠ a := by
          intro hxa
          subst hxa
          exact (List.nodup_cons.mp hnd).1 h
        rw [countOcc_cons, if_neg hx, ih (List.nodup_cons.mp hnd).2 h]

theorem countOcc_filter {α : Type} [DecidableEq α] {p : α → Bool} {a : α}
    (hp : p a = true) (l : List α) : countOcc a (l.filter p) = countOcc a l := by
  induction l with
  | nil => rfl
  | cons x l ih =>
      by_cases hx : x = a
      · subst hx
        rw [List.filter_cons_of_pos hp, countOcc_cons, countOcc_cons, ih]
      · by_cases hpx : p x = true
        · rw [List.filter_cons_of_pos hpx, countOcc_cons, countOcc_cons,
            if_neg hx, ih]
        · rw [List.filter_cons_of_neg (by simpa using hpx), countOcc_cons,
            if_neg hx, ih]
          exact (Nat.zero_add _).symm

/-! ### C1: the diff is minimal and complete -/

/-- C1: `into_updates` produces exactly the minimal changeset.  For snapshots
whose two maps are well-formed `HashMap` images: (1) a key held in `current`
with a value different from (or absent in) `initial` appears exactly once in
`upserts`, with its `current` value; (2) a key held unchanged in both maps
appears in neither list; (3) a key of `initial` absent from `current` appears
exactly once in `deletes`; (4) every upsert reflects a changed or new
`current` entry; (5) every delete reflects a removed `initial` key; (6) no key
appears in both lists. -/
theorem into_updates_minimal_complete (ini cur : KVMap)
    (hini : NodupKeys ini) (hcur : NodupKeys cur) :
    (∀ k v, lookup cur k = some v → lookup ini k ≠ some v →
      countOcc (k, v) (into_updates ⟨ini, cur⟩).upserts = 1)
  ∧ (∀ k v, lookup cur k = some v → lookup ini k = some v →
      k ∉ keys (into_updates ⟨ini, cur⟩).upserts ∧
        k ∉ (into_updates ⟨ini, cur⟩).deletes)
  ∧ (∀ k, k ∈ keys ini → lookup cur k = none →
      countOcc k (into_updates ⟨ini, cur⟩).deletes = 1)
  ∧ (∀ k v, (k, v) ∈ (into_updates ⟨ini, cur⟩).upserts →
      lookup cur k = some v ∧ lookup ini k ≠ some v)
  ∧ (∀ k, k ∈ (into_updates ⟨ini, cur⟩).deletes →
      k ∈ keys ini ∧ lookup cur k = none)
  ∧ (∀ k, k ∈ keys (into_updates ⟨ini, cur⟩).upserts →
      k ∉ (into_updates ⟨ini, cur⟩).deletes) := by
  have hcur' : cur.Nodup := List.Nodup.of_map Prod.fst hcur
  have hup : ∀ k v, (k, v) ∈ (into_updates ⟨ini, cur⟩).upserts →
      lookup cur k = some v ∧ lookup ini k ≠ some v := by
    intro k v hmem
    have h := List.mem_filter.mp hmem
    exact ⟨lookup_eq_some_of_mem hcur h.1, changedEntry_eq_true_iff.mp h.2⟩
  have hdel : ∀ k, k ∈ (into_updates ⟨ini, cur⟩).deletes →
      k ∈ keys ini ∧ lookup cur k = none := by
    intro k hmem
    have h := List.mem_filter.mp hmem
    exact ⟨h.1, Option.isNone_iff_eq_none.mp (by simpa using h.2)⟩
  have hupk : ∀ k, k ∈ keys (into_updates ⟨ini, cur⟩).upserts →
      ∃ v, lookup cur k = some v ∧ lookup ini k ≠ some v := by
    intro k hk
    obtain ⟨⟨k1, v1⟩, hmem, hfst⟩ := List.mem_map.mp hk
    cases hfst
    exact ⟨v1, hup _ _ hmem⟩
  refine ⟨?_, ?_, ?_, hup, hdel, ?_⟩
  · intro k v h1 h2
    have hmem : (k, v) ∈ cur := mem_of_lookup_eq_some h1
    have hp : changedEntry ini (k, v) = true := changedEntry_eq_true_iff.mpr h2
    show countOcc (k, v) (cur.filter (changedEntry ini)) = 1
    rw [countOcc_filter hp]
    exact countOcc_eq_one_of_mem hcur' hmem
  · intro k v h1 h2
    constructor
    · intro hk
      obtain ⟨v', hcv', hdiff⟩ := hupk k hk
      rw [h1] at hcv'
      cases hcv'
      exact hdiff h2
    · intro hk
      have := (hdel k hk).2
      rw [h1] at this
      cases this
  · intro k hk hnone
    have hq : ((lookup cur k).isNone : Bool) = true := by
      simp [hnone]
    show countOcc k ((keys ini).filter (fun k => (lookup cur k).isNone)) = 1
    rw [@countOcc_filter Bytes _ (fun k => (lookup cur k).isNone) k hq (keys ini)]
    exact countOcc_eq_one_of_mem hini hk
  · intro k hk hdk
    obtain ⟨v', hcv', _⟩ := hupk k hk
    have := (hdel k hdk).2
    rw [hcv'] at this
    cases this

/-- Witness for C1 at a concrete snapshot: initial `{[0] ↦ [1]}`, current
`{[0] ↦ [2]}`; the changed key appears exactly once in the upserts. -/
theorem into_updates_minimal_complete_witness :
    countOcc ([0], [2]) (into_updates ⟨[([0], [1])], [([0], [2])]⟩).upserts = 1 :=
  (into_updates_minimal_complete [([0], [1])] [([0], [2])]
      (by decide) (by decide)).1 [0] [2] (by decide) (by decide)

/-! ### C9: an untouched snapshot diffs to the empty changeset -/

theorem mem_keys_insertKV {m : KVMap} {k v a : Bytes} :
    a ∈ keys (insertKV m k v) ↔ a ∈ keys m ∨ a = k := by
  induction m with
  | nil => simp [insertKV, keys]
  | cons hd tl ih =>
      obtain ⟨k', v'⟩ := hd
      by_cases hk : k' = k
      · subst hk
        simp [insertKV, keys_cons]
        tauto
      · rw [show insertKV ((k', v') :: tl) k v = (k', v') :: insertKV tl k v from
          by simp [insertKV, hk]]
        simp [keys_cons, ih]
        tauto

theorem nodupKeys_insertKV {m : KVMap} {k v : Bytes} (hm : NodupKeys m) :
    NodupKeys (insertKV m k v) := by
  induction m with
  | nil => simp [insertKV, NodupKeys, keys]
  | cons hd tl ih =>
      obtain ⟨k', v'⟩ := hd
      by_cases hk : k' = k
      · subst hk
        simpa [insertKV, NodupKeys, keys_cons] using hm
      · rw [show insertKV ((k', v') :: tl) k v = (k', v') :: insertKV tl k v from
          by simp [insertKV, hk]]
        simp only [NodupKeys, keys_cons, List.nodup_cons] at *
        refine ⟨?_, ih hm.2⟩
        intro hmem
        rcases mem_keys_insertKV.mp hmem with h | h
        · exact hm.1 h
        · exact hk h

theorem nodupKeys_foldl_insertKV (entries : KVMap) (m : KVMap) (hm : NodupKeys m) :
    NodupKeys (entries.foldl (fun acc kv => insertKV acc kv.1 kv.2) m) := by
  induction entries generalizing m with
  | nil => simpa using hm
  | cons hd tl ih => exact ih _ (nodupKeys_insertKV hm)

theorem into_updates_diag {m : KVMap} (hm : NodupKeys m) :
    into_updates ⟨m, m⟩ = ⟨[], []⟩ := by
  unfold into_updates
  have hup : m.filter (changedEntry m) = [] := by
    rw [List.filter_eq_nil_iff]
    intro kv hmem
    obtain ⟨k, v⟩ := kv
    have : lookup m k = some v := lookup_eq_some_of_mem hm hmem
    simp [changedEntry, this]
  have hdel : (keys m).filter (fun k => (lookup m k).isNone) = [] := by
    rw [List.filter_eq_nil_iff]
    intro k hk hcontra
    have hs : (lookup m k).isSome := lookup_isSome_iff_mem_keys.mpr hk
    rw [Option.isNone_iff_eq_none] at hcontra
    rw [hcontra] at hs
    cases hs
  simp [hup, hdel]

/-- C9: a snapshot built by `from_entries` from entries with distinct keys and
immediately consumed by `into_updates` (no intervening write or delete) yields
empty upserts and empty deletes. -/
theorem from_entries_into_updates_empty (entries : KVMap)
    (h : (keys entries).Nodup) :
    into_updates (from_entries entries) = ⟨[], []⟩ := by
  have hnd : NodupKeys (entries.foldl (fun acc kv => insertKV acc kv.1 kv.2) []) :=
    nodupKeys_foldl_insertKV entries [] (by simp [NodupKeys, keys])
  exact into_updates_diag hnd

/-- Witness for C9 at a concrete entry list. -/
theorem from_entries_into_updates_empty_witness :
    into_updates (from_entries [([0], [1]), ([2], [3])]) = ⟨[], []⟩ :=
  from_entries_into_updates_empty [([0], [1]), ([2], [3])] (by decide)

/-! ### Key codec (shared by snapshot_storage.rs and dart_storage.rs)

Composite keys are `label || serde_json(logical_key) || version_be_u16`.
`serde_json` output is modelled byte for byte: a `u64`/`u32` serialises to its
decimal ASCII digits, a `Vec<u8>` to a JSON array of numbers, and an OpenMLS
`GroupId { value: VLBytes { vec } }` to the object
`{"value":{"vec":[..]}}`. -/

/-- ASCII bytes of a string (all characters involved are ASCII). -/
def bytesOfString (s : String) : Bytes :=
  s.data.map Char.toNat

def natDigitsAux : Nat → Nat → Bytes
  | 0, _ => []
  | fuel + 1, n => if n < 10 then [48 + n] else natDigitsAux fuel (n / 10) ++ [48 + n % 10]

/-- Decimal ASCII digits of a natural number: the `serde_json` encoding of an
unsigned integer (`GroupEpoch`'s inner `u64`, a `u32` leaf index). -/
def natDigits (n : Nat) : Bytes :=
  natDigitsAux (n + 1) n

/-- `serde_json` encoding of a `Vec<u8>`: a JSON array of decimal numbers. -/
def jsonBytesArray (bs : Bytes) : Bytes :=
  91 :: List.intercalate [44] (bs.map natDigits) ++ [93]

/-- `serde_json` encoding of `GroupId { value: VLBytes { vec } }`, the JSON
object whose ASCII rendering is `{"value":{"vec":` ++ array ++ `}}`. -/
def jsonGroupId (g : Bytes) : Bytes :=
  [123, 34, 118, 97, 108, 117, 101, 34, 58, 123, 34, 118, 101, 99, 34, 58]
    ++ jsonBytesArray g ++ [125, 125]

/-- `openmls_traits::storage::CURRENT_VERSION`. -/
def CURRENT_VERSION : Nat := 1

/-- `u16::to_be_bytes`. -/
def u16_to_be_bytes (v : Nat) : Bytes :=
  [v / 256 % 256, v % 256]

/-- `build_key::<V>(label, key_bytes)`: `label || key_bytes || version_be_u16`. -/
def build_key (label : Bytes) (key_bytes : Bytes) (v : Nat) : Bytes :=
  label ++ key_bytes ++ u16_to_be_bytes v

/-- `build_key_serde::<V>(label, key)`, with the `serde_json` serialisation of
the logical key abstracted as `ser`. -/
def build_key_serde {α : Type} (ser : α → Bytes) (label : Bytes) (k : α) (v : Nat) : Bytes :=
  build_key label (ser k) v

/-- `build_epoch_key::<V>(group_id, epoch, leaf_index)`: the key bytes are the
unseparated concatenation of the `serde_json` encodings of the group id, the
epoch (`u64`) and the leaf index (`u32`), under the `EpochKeyPairs` label. -/
def build_epoch_key (group_id : Bytes) (epoch : Nat) (leaf_index : Nat) : Bytes :=
  build_key (bytesOfString "EpochKeyPairs")
    (jsonGroupId group_id ++ natDigits epoch ++ natDigits leaf_index) CURRENT_VERSION

/-! ### Labels and scope classification (encrypted_db.rs) -/

/-- `key.starts_with(label)` on byte slices. -/
def starts_with : Bytes → Bytes → Bool
  | _, [] => true
  | [], _ :: _ => false
  | b :: bs, l :: ls => decide (b = l) && starts_with bs ls

/-- `GLOBAL_LABELS`: labels of globally-scoped keys. -/
def GLOBAL_LABELS : List Bytes :=
  [bytesOfString "KeyPackage", bytesOfString "Psk",
   bytesOfString "EncryptionKeyPair", bytesOfString "SignatureKeyPair"]

/-- `is_global_key`: a key is global iff it starts with a global label. -/
def is_global_key (key : Bytes) : Bool :=
  GLOBAL_LABELS.any (fun label => starts_with key label)

/-! ### C6: composite-key injectivity -/

/-- C6 counterexample: the three-part epoch-key-pair identifier is not
injective.  With the same group id, the distinct identifiers
`(epoch 42, leaf_index 7)` and `(epoch 4, leaf_index 27)` serialise to the
same unseparated digit string `427`, hence to the same composite key. -/
theorem build_epoch_key_not_injective :
    build_epoch_key [5] 42 7 = build_epoch_key [5] 4 27
  ∧ ((42, 7) : Nat × Nat) ≠ (4, 27) := by
  constructor
  · decide
  · decide

/-- C6 (amended): for a fixed label and format version the composite key
encoding `label || key_bytes || version` is injective in the serialised key
bytes, and `build_key_serde` never maps two distinct logical keys of the same
entity kind to the same composite key whenever the logical-key serialisation
is itself injective; the three-part epoch identifier, whose serialisation is
not injective, is the exception exhibited by the counterexample. -/
theorem build_key_injective {α : Type} (label : Bytes) (v : Nat) :
    (∀ kb1 kb2 : Bytes, build_key label kb1 v = build_key label kb2 v → kb1 = kb2)
  ∧ (∀ ser : α → Bytes, Function.Injective ser →
      ∀ k1 k2 : α,
        build_key_serde ser label k1 v = build_key_serde ser label k2 v →
          k1 = k2) := by
  have hbk : ∀ kb1 kb2 : Bytes,
      build_key label kb1 v = build_key label kb2 v → kb1 = kb2 := by
    intro kb1 kb2 h
    unfold build_key at h
    rw [List.append_assoc, List.append_assoc] at h
    have h1 : kb1 ++ u16_to_be_bytes v = kb2 ++ u16_to_be_bytes v :=
      List.append_cancel_left h
    exact List.append_cancel_right h1
  refine ⟨hbk, ?_⟩
  intro ser hser k1 k2 h
  exact hser (hbk (ser k1) (ser k2) h)

/-- Witness for C6's amended theorem, applied at a concrete label, version,
serialisation (the identity) and logical keys. -/
theorem build_key_injective_witness :
    ([7, 7] : Bytes) = [7, 7] ∧ ([9] : Bytes) = [9] :=
  ⟨(@build_key_injective Bytes (bytesOfString "Tree") 1).1 [7, 7] [7, 7] rfl,
   (@build_key_injective Bytes (bytesOfString "Tree") 1).2 (fun b => b)
     (fun _ _ hb => hb) [9] [9] rfl⟩

/-! ### Encrypted physical store (encrypted_db.rs)

The native backend's `mls_storage` table is a list of rows
`(key, value, group_id)` whose primary key is `key`; the sandboxed (WASM)
backend's object store is a list of `(key, encrypted_value)` rows with one
reserved metadata key.  Per-value AES-256-GCM on the sandboxed backend is
abstracted as a decryption parameter where a loaded value passes through it. -/

abbrev NativeRow := Bytes × Bytes × Option Bytes

abbrev NativeStore := List NativeRow

abbrev WasmStore := List (Bytes × Bytes)

/-- The reserved WASM metadata key `__openmls_schema_version__`. -/
def wasmMetaKey : Bytes :=
  bytesOfString "__openmls_schema_version__"

/-- Primary-key lookup in the native `mls_storage` table. -/
def rowLookup : NativeStore → Bytes → Option (Bytes × Option Bytes)
  | [], _ => none
  | (k', v, g) :: rest, k => if k' = k then some (v, g) else rowLookup rest k

/-- `INSERT OR REPLACE INTO mls_storage`: replace the row carrying this
primary key if present (`key` is the table's primary key, so at most one row
matches), else insert a new row. -/
def sql_upsert : NativeStore → Bytes → Bytes → Option Bytes → NativeStore
  | [], k, v, g => [(k, v, g)]
  | (k', v', g') :: rest, k, v, g =>
      if k' = k then (k, v, g) :: rest else (k', v', g') :: sql_upsert rest k v g

/-- `EncryptedDb::save_updates` (native): upsert every entry of `upserts`,
classifying its key as global (`group_id` column NULL) or group-scoped (the
supplied hint), then delete every key of `deletes`; all inside one
transaction. -/
def save_updates_native (st : NativeStore) (u : StorageUpdates)
    (group_id : Option Bytes) : NativeStore :=
  let st1 := u.upserts.foldl
    (fun s kv =>
      sql_upsert s kv.1 kv.2 (if is_global_key kv.1 then none else group_id)) st
  u.deletes.foldl (fun s k => s.filter (fun r => decide (r.1 ≠ k))) st1

/-- `EncryptedDb::delete_group` (native):
`DELETE FROM mls_storage WHERE group_id = ?1`. -/
def delete_group_native (st : NativeStore) (group_id : Bytes) : NativeStore :=
  st.filter (fun r => decide (r.2.2 ≠ some group_id))

/-- `EncryptedDb::load_for_group` (native):
`SELECT key, value WHERE group_id = ?1 OR group_id IS NULL`. -/
def load_for_group_native (st : NativeStore) (group_id : Bytes) :
    List (Bytes × Bytes) :=
  (st.filter (fun r => decide (r.2.2 = some group_id) || decide (r.2.2 = none))).map
    (fun r => (r.1, r.2.1))

/-- `EncryptedDb::load_global` (native):
`SELECT key, value WHERE group_id IS NULL`. -/
def load_global_native (st : NativeStore) : List (Bytes × Bytes) :=
  (st.filter (fun r => decide (r.2.2 = none))).map (fun r => (r.1, r.2.1))

/-- `EncryptedDb::idb_get_all_keys` (wasm): every key of the object store
except the reserved metadata key. -/
def idb_get_all_keys (st : WasmStore) : List Bytes :=
  (st.map Prod.fst).filter (fun k => decide (k ≠ wasmMetaKey))

/-- `EncryptedDb::idb_get_all` (wasm): every row except the metadata row. -/
def idb_get_all (st : WasmStore) : WasmStore :=
  st.filter (fun kv => decide (kv.1 ≠ wasmMetaKey))

/-- `EncryptedDb::delete_group` (wasm): collect all keys, keep the non-global
ones, and delete each of them — the group id argument is unused. -/
def delete_group_wasm (st : WasmStore) (_group_id : Bytes) : WasmStore :=
  let nonGlobal := (idb_get_all_keys st).filter (fun k => ! is_global_key k)
  nonGlobal.foldl (fun s k => s.filter (fun kv => decide (kv.1 ≠ k))) st

/-- The per-row decrypt-and-collect loop of the wasm `load_*` functions: the
first decryption failure aborts the load. -/
def decrypt_all (decrypt : Bytes → Except String Bytes) :
    WasmStore → Except String (List (Bytes × Bytes))
  | [] => .ok []
  | (k, ev) :: rest =>
      match decrypt ev with
      | .error e => .error e
      | .ok v =>
          match decrypt_all decrypt rest with
          | .error e => .error e
          | .ok tl => .ok ((k, v) :: tl)

/-- `EncryptedDb::load_for_group` (wasm): load every row of the store (minus
the metadata row) and decrypt each value — the group id argument is unused. -/
def load_for_group_wasm (decrypt : Bytes → Except String Bytes) (st : WasmStore)
    (_group_id : Bytes) : Except String (List (Bytes × Bytes)) :=
  decrypt_all decrypt (idb_get_all st)

/-- `EncryptedDb::load_global` (wasm): the rows with a global key, each value
decrypted. -/
def load_global_wasm (decrypt : Bytes → Except String Bytes) (st : WasmStore) :
    Except String (List (Bytes × Bytes)) :=
  decrypt_all decrypt ((idb_get_all st).filter (fun kv => is_global_key kv.1))

/-! ### C2: delete_group scope -/

theorem mem_foldl_filter_ne {ks : List Bytes} {st : WasmStore} {kv : Bytes × Bytes} :
    kv ∈ ks.foldl (fun s k => s.filter (fun kv => decide (kv.1 ≠ k))) st ↔
      kv ∈ st ∧ kv.1 ∉ ks := by
  induction ks generalizing st with
  | nil => simp
  | cons k ks ih =>
      rw [List.foldl_cons, ih]
      simp [List.mem_filter]
      tauto

/-- C2 (amended): on the native backend `delete_group(A)` removes exactly the
rows whose `group_id` column is `A`, keeping every global row and every row of
any other group; on the sandboxed backend `delete_group` keeps exactly the
global rows and the reserved metadata row, removing every group-scoped row
regardless of its group. -/
theorem delete_group_scope (st : NativeStore) (wst : WasmStore) (gid : Bytes) :
    (∀ r : NativeRow, r ∈ delete_group_native st gid ↔
      r ∈ st ∧ r.2.2 ≠ some gid)
  ∧ (∀ kv : Bytes × Bytes, kv ∈ delete_group_wasm wst gid ↔
      kv ∈ wst ∧ (is_global_key kv.1 = true ∨ kv.1 = wasmMetaKey)) := by
  constructor
  · intro r
    simp [delete_group_native, List.mem_filter]
  · intro kv
    unfold delete_group_wasm
    rw [mem_foldl_filter_ne]
    constructor
    · rintro ⟨hmem, hnot⟩
      refine ⟨hmem, ?_⟩
      by_cases hglob : is_global_key kv.1 = true
      · exact Or.inl hglob
      · by_cases hmeta : kv.1 = wasmMetaKey
        · exact Or.inr hmeta
        · exfalso
          apply hnot
          rw [List.mem_filter]
          refine ⟨?_, by simp [hglob]⟩
          unfold idb_get_all_keys
          rw [List.mem_filter]
          exact ⟨List.mem_map_of_mem Prod.fst hmem, by simp [hmeta]⟩
    · rintro ⟨hmem, hkeep⟩
      refine ⟨hmem, ?_⟩
      intro hbad
      rw [List.mem_filter] at hbad
      rcases hkeep with hglob | hmeta
      · rw [hglob] at hbad
        simp at hbad
      · have := (List.mem_filter.mp (by
          have := hbad.1
          unfold idb_get_all_keys at this
          exact this)).2
        rw [hmeta] at this
        simp at this

/-- C2 counterexample: on the sandboxed backend, deleting group `[1]` removes
the (non-global) row of the different group `[2]` — its key is the `Tree`
composite key embedding group id `[2]`. -/
theorem delete_group_wasm_removes_other_group :
    delete_group_wasm
        [(build_key (bytesOfString "Tree") (jsonGroupId [2]) CURRENT_VERSION, [0])]
        [1] = []
  ∧ is_global_key
      (build_key (bytesOfString "Tree") (jsonGroupId [2]) CURRENT_VERSION) = false
  ∧ ([1] : Bytes) ≠ [2] := by
  refine ⟨by decide, by decide, by decide⟩

/-! ### C3: load_for_group scope -/

theorem decrypt_all_map_fst {decrypt : Bytes → Except String Bytes}
    {rows : WasmStore} {res : List (Bytes × Bytes)}
    (h : decrypt_all decrypt rows = .ok res) :
    res.map Prod.fst = rows.map Prod.fst := by
  induction rows generalizing res with
  | nil =>
      simp [decrypt_all] at h
      simp [h]
  | cons hd tl ih =>
      obtain ⟨k, ev⟩ := hd
      simp only [decrypt_all] at h
      cases hdec : decrypt ev with
      | error e => rw [hdec] at h; cases h
      | ok v =>
          rw [hdec] at h
          cases hrec : decrypt_all decrypt tl with
          | error e => rw [hrec] at h; cases h
          | ok tl' =>
              rw [hrec] at h
              cases h
              simp [ih hrec]

/-- C3 (amended): on the native backend `load_for_group(A)` returns exactly
the rows whose `group_id` column is `A` or NULL (global); on the sandboxed
backend a successful `load_for_group(A)` returns every stored row except the
reserved metadata row — including rows scoped to other groups. -/
theorem load_for_group_scope (st : NativeStore) (wst : WasmStore)
    (decrypt : Bytes → Except String Bytes) (gid : Bytes)
    (res : List (Bytes × Bytes))
    (hw : load_for_group_wasm decrypt wst gid = .ok res) :
    (∀ kv : Bytes × Bytes, kv ∈ load_for_group_native st gid ↔
      ((kv.1, kv.2, some gid) ∈ st ∨ (kv.1, kv.2, (none : Option Bytes)) ∈ st))
  ∧ res.map Prod.fst = (idb_get_all wst).map Prod.fst := by
  constructor
  · intro kv
    constructor
    · intro h
      obtain ⟨r, hr, hf⟩ := List.mem_map.mp h
      obtain ⟨k1, v1, g1⟩ := r
      obtain ⟨hmem, hp⟩ := List.mem_filter.mp hr
      simp only at hf
      cases hf
      simp at hp
      rcases hp with hp | hp
      · exact Or.inl (by rw [← hp]; exact hmem)
      · exact Or.inr (by rw [← hp]; exact hmem)
    · intro h
      rcases h with h | h
      · exact List.mem_map.mpr ⟨(kv.1, kv.2, some gid),
          List.mem_filter.mpr ⟨h, by simp⟩, rfl⟩
      · exact List.mem_map.mpr ⟨(kv.1, kv.2, none),
          List.mem_filter.mpr ⟨h, by simp⟩, rfl⟩
  · exact decrypt_all_map_fst hw

/-- C3 counterexample: on the sandboxed backend, loading for group `[1]`
returns the row of the different group `[2]` (with a decryption that succeeds
on the stored value). -/
theorem load_for_group_wasm_returns_other_group :
    load_for_group_wasm (fun b => .ok b)
        [(build_key (bytesOfString "Tree") (jsonGroupId [2]) CURRENT_VERSION, [7])]
        [1]
      = .ok [(build_key (bytesOfString "Tree") (jsonGroupId [2]) CURRENT_VERSION, [7])]
  ∧ is_global_key
      (build_key (bytesOfString "Tree") (jsonGroupId [2]) CURRENT_VERSION) = false
  ∧ ([1] : Bytes) ≠ [2] := by
  refine ⟨rfl, by decide, by decide⟩

/-- Witness for C3's amended theorem at a one-row store with a decryption
that succeeds. -/
theorem load_for_group_scope_witness :
    (∀ kv : Bytes × Bytes, kv ∈ load_for_group_native [] [1] ↔
      ((kv.1, kv.2, some [1]) ∈ ([] : NativeStore) ∨
        (kv.1, kv.2, (none : Option Bytes)) ∈ ([] : NativeStore)))
  ∧ ([([9], [7])] : List (Bytes × Bytes)).map Prod.fst
      = (idb_get_all [([9], [7])]).map Prod.fst :=
  load_for_group_scope [] [([9], [7])] (fun b => .ok b) [1] [([9], [7])] rfl

/-! ### C7: save_updates stores global upserts without a group association -/

theorem rowLookup_sql_upsert_self (st : NativeStore) (k v : Bytes) (g : Option Bytes) :
    rowLookup (sql_upsert st k v g) k = some (v, g) := by
  induction st with
  | nil => simp [sql_upsert, rowLookup]
  | cons hd tl ih =>
      obtain ⟨k1, v1, g1⟩ := hd
      by_cases hk : k1 = k
      · rw [show sql_upsert ((k1, v1, g1) :: tl) k v g = (k, v, g) :: tl from
          by simp [sql_upsert, hk]]
        simp [rowLookup]
      · rw [show sql_upsert ((k1, v1, g1) :: tl) k v g
            = (k1, v1, g1) :: sql_upsert tl k v g from by simp [sql_upsert, hk]]
        simp only [rowLookup]
        rw [if_neg hk]
        exact ih

theorem rowLookup_sql_upsert_other {st : NativeStore} {k' k v : Bytes}
    {g : Option Bytes} (hk : k' ≠ k) :
    rowLookup (sql_upsert st k' v g) k = rowLookup st k := by
  induction st with
  | nil =>
      simp [sql_upsert, rowLookup, hk]
  | cons hd tl ih =>
      obtain ⟨k1, v1, g1⟩ := hd
      by_cases h1 : k1 = k'
      · rw [show sql_upsert ((k1, v1, g1) :: tl) k' v g = (k', v, g) :: tl from
          by simp [sql_upsert, h1]]
        subst h1
        simp only [rowLookup]
        rw [if_neg hk, if_neg hk]
      · rw [show sql_upsert ((k1, v1, g1) :: tl) k' v g
            = (k1, v1, g1) :: sql_upsert tl k' v g from by simp [sql_upsert, h1]]
        by_cases h2 : k1 = k
        · subst h2
          simp [rowLookup]
        · simp only [rowLookup]
          rw [if_neg h2, if_neg h2]
          exact ih

theorem rowLookup_foldl_upserts_not_mem {us : KVMap} {st : NativeStore} {k : Bytes}
    {gid : Option Bytes} (h : k ∉ keys us) :
    rowLookup (us.foldl (fun s kv =>
        sql_upsert s kv.1 kv.2 (if is_global_key kv.1 then none else gid)) st) k
      = rowLookup st k := by
  induction us generalizing st with
  | nil => rfl
  | cons hd tl ih =>
      obtain ⟨k0, v0⟩ := hd
      rw [keys_cons] at h
      rw [List.foldl_cons, ih (fun hm => h (List.mem_cons_of_mem _ hm))]
      exact rowLookup_sql_upsert_other (fun he => h (he ▸ List.mem_cons_self _ _))

theorem rowLookup_foldl_upserts_mem {us : KVMap} {st : NativeStore} {k : Bytes}
    {gid : Option Bytes} (h : k ∈ keys us) :
    ∃ v, (k, v) ∈ us ∧
      rowLookup (us.foldl (fun s kv =>
          sql_upsert s kv.1 kv.2 (if is_global_key kv.1 then none else gid)) st) k
        = some (v, if is_global_key k then none else gid) := by
  induction us generalizing st with
  | nil => cases h
  | cons hd tl ih =>
      obtain ⟨k0, v0⟩ := hd
      by_cases htl : k ∈ keys tl
      · obtain ⟨v, hv, heq⟩ := ih htl
        exact ⟨v, List.mem_cons_of_mem _ hv, heq⟩
      · have hk : k0 = k := by
          rw [keys_cons] at h
          rcases List.mem_cons.mp h with h | h
          · exact h.symm
          · exact absurd h htl
        subst hk
        refine ⟨v0, List.mem_cons_self _ _, ?_⟩
        rw [List.foldl_cons, rowLookup_foldl_upserts_not_mem htl]
        exact rowLookup_sql_upsert_self st k0 v0 _

theorem rowLookup_filter_ne {st : NativeStore} {k k' : Bytes} (hk : k' ≠ k) :
    rowLookup (st.filter (fun r => decide (r.1 ≠ k'))) k = rowLookup st k := by
  induction st with
  | nil => rfl
  | cons hd tl ih =>
      obtain ⟨k1, v1, g1⟩ := hd
      by_cases h1 : k1 = k'
      · subst h1
        rw [List.filter_cons_of_neg (by simp), ih]
        have h2 : k1 ≠ k := hk
        simp only [rowLookup]
        rw [if_neg h2]
      · rw [List.filter_cons_of_pos (by simpa using h1)]
        by_cases h2 : k1 = k
        · subst h2
          simp [rowLookup]
        · simp only [rowLookup]
          rw [if_neg h2, if_neg h2]
          exact ih

theorem rowLookup_foldl_deletes_not_mem {ds : List Bytes} {st : NativeStore}
    {k : Bytes} (h : k ∉ ds) :
    rowLookup (ds.foldl (fun s k' => s.filter (fun r => decide (r.1 ≠ k'))) st) k
      = rowLookup st k := by
  induction ds generalizing st with
  | nil => rfl
  | cons d ds ih =>
      rw [List.foldl_cons, ih (fun hm => h (List.mem_cons_of_mem _ hm))]
      exact rowLookup_filter_ne (fun he => h (he ▸ List.mem_cons_self _ _))

/-- C7: for every `StorageUpdates` and every group hint, the native
`save_updates` stores each upsert whose key is classified global with a NULL
`group_id` column even when a hint is supplied, and stores every other upsert
associated with the supplied hint (for keys not also appearing in `deletes`,
which are removed in the same transaction after the upserts). -/
theorem save_updates_global_scoping (st : NativeStore) (u : StorageUpdates)
    (gid : Option Bytes) (k : Bytes)
    (hk : k ∈ keys u.upserts) (hnd : k ∉ u.deletes) :
    ∃ v, (k, v) ∈ u.upserts ∧
      rowLookup (save_updates_native st u gid) k =
        some (v, if is_global_key k then none else gid) := by
  obtain ⟨v, hv, heq⟩ := @rowLookup_foldl_upserts_mem u.upserts st k gid hk
  refine ⟨v, hv, ?_⟩
  unfold save_updates_native
  rw [rowLookup_foldl_deletes_not_mem hnd]
  exact heq

/-- Witness for C7: one global upsert (`KeyPackage` key) saved with a
non-empty group hint is stored with no group association. -/
theorem save_updates_global_scoping_witness :
    ∃ v, ((build_key (bytesOfString "KeyPackage") [50] CURRENT_VERSION, v)
        ∈ [((build_key (bytesOfString "KeyPackage") [50] CURRENT_VERSION, [1]) :
            Bytes × Bytes)]) ∧
      rowLookup
          (save_updates_native []
            ⟨[(build_key (bytesOfString "KeyPackage") [50] CURRENT_VERSION, [1])], []⟩
            (some [9]))
          (build_key (bytesOfString "KeyPackage") [50] CURRENT_VERSION) =
        some (v,
          if is_global_key (build_key (bytesOfString "KeyPackage") [50] CURRENT_VERSION)
          then none else some [9]) :=
  save_updates_global_scoping []
    ⟨[(build_key (bytesOfString "KeyPackage") [50] CURRENT_VERSION, [1])], []⟩
    (some [9]) (build_key (bytesOfString "KeyPackage") [50] CURRENT_VERSION)
    (by decide) (by decide)

/-! ### C4: schema-version migration -/

/-- `LATEST_SCHEMA_VERSION` in encrypted_db.rs. -/
def LATEST_SCHEMA_VERSION : Nat := 1

/-- The schema-relevant state of a native (SQLCipher) database file:
whether the `db_meta` table exists, the version recorded in it (none when no
row is recorded; read back as 0), and whether the `mls_storage` table and its
`group_id` index exist. -/
structure NativeDb where
  hasDbMeta : Bool
  schemaVersion : Option Nat
  hasMlsStorage : Bool
  hasGroupIdIndex : Bool
deriving DecidableEq

/-- `EncryptedDb::migrate_native_v0_to_v1`: create the `mls_storage` table and
the `group_id` index, and record schema version 1, in one transaction. -/
def migrate_native_v0_to_v1 (st : NativeDb) : NativeDb :=
  { st with hasMlsStorage := true, hasGroupIdIndex := true, schemaVersion := some 1 }

/-- `EncryptedDb::run_migrations` (native): ensure `db_meta` exists, read the
persisted version (unrecorded reads as 0), fail if it exceeds
`LATEST_SCHEMA_VERSION`, do nothing if it equals it, else run the v0→v1 step
(the only migration as of version 1). -/
def run_migrations_native (st : NativeDb) : NativeDb × Option String :=
  let st1 := { st with hasDbMeta := true }
  let version := st1.schemaVersion.getD 0
  if LATEST_SCHEMA_VERSION < version then
    (st1, some "Database schema version is newer than supported. Update the app.")
  else if LATEST_SCHEMA_VERSION ≤ version then
    (st1, none)
  else
    (migrate_native_v0_to_v1 st1, none)

/-- The schema-relevant state of a sandboxed (IndexedDB) database: whether the
`mls_storage` object store exists (structural phase A) and the decrypted
version held under the reserved metadata key (none when absent; read as 0). -/
structure WasmDb where
  hasMlsStore : Bool
  metaVersion : Option Nat
deriving DecidableEq

/-- `EncryptedDb::run_migrations` (wasm): phase A ensures the object store
exists, then the version is read (absent reads as 0), a newer-than-supported
version fails, an equal version does nothing, and v0→v1 just records
version 1. -/
def run_migrations_wasm (st : WasmDb) : WasmDb × Option String :=
  let st1 := { st with hasMlsStore := true }
  let version := st1.metaVersion.getD 0
  if LATEST_SCHEMA_VERSION < version then
    (st1, some "Database schema version is newer than supported. Update the app.")
  else if LATEST_SCHEMA_VERSION ≤ version then
    (st1, none)
  else
    ({ st1 with metaVersion := some 1 }, none)

/-- C4: on both backends, for every persisted schema version `V` (unrecorded
read as 0): `V > LATEST_SCHEMA_VERSION` fails with an error and leaves the
state unchanged; `V < LATEST_SCHEMA_VERSION` succeeds having applied the
migration steps in order (only v0→v1 exists) and leaves the persisted version
exactly `LATEST_SCHEMA_VERSION`; `V = LATEST_SCHEMA_VERSION` succeeds without
performing any migration.  (For the first and last cases the metadata
table/object store must already exist, which holds in any state that actually
records a version.) -/
theorem run_migrations_spec :
    (∀ (st : NativeDb) (V : Nat), st.hasDbMeta = true → st.schemaVersion = some V →
      LATEST_SCHEMA_VERSION < V →
      (run_migrations_native st).1 = st ∧ (run_migrations_native st).2.isSome)
  ∧ (∀ st : NativeDb, st.schemaVersion.getD 0 < LATEST_SCHEMA_VERSION →
      run_migrations_native st
        = (migrate_native_v0_to_v1 { st with hasDbMeta := true }, none)
      ∧ (run_migrations_native st).1.schemaVersion = some LATEST_SCHEMA_VERSION)
  ∧ (∀ st : NativeDb, st.hasDbMeta = true →
      st.schemaVersion = some LATEST_SCHEMA_VERSION →
      run_migrations_native st = (st, none))
  ∧ (∀ (st : WasmDb) (V : Nat), st.hasMlsStore = true → st.metaVersion = some V →
      LATEST_SCHEMA_VERSION < V →
      (run_migrations_wasm st).1 = st ∧ (run_migrations_wasm st).2.isSome)
  ∧ (∀ st : WasmDb, st.metaVersion.getD 0 < LATEST_SCHEMA_VERSION →
      run_migrations_wasm st
        = ({ st with hasMlsStore := true, metaVersion := some 1 }, none)
      ∧ (run_migrations_wasm st).1.metaVersion = some LATEST_SCHEMA_VERSION)
  ∧ (∀ st : WasmDb, st.hasMlsStore = true →
      st.metaVersion = some LATEST_SCHEMA_VERSION →
      run_migrations_wasm st = (st, none)) := by
  refine ⟨?_, ?_, ?_, ?_, ?_, ?_⟩
  · rintro ⟨hm, sv, hs, hi⟩ V hmeta hver hlt
    cases hmeta
    cases hver
    simp only [run_migrations_native, Option.getD]
    rw [if_pos hlt]
    simp
  · rintro ⟨hm, sv, hs, hi⟩ hlt
    have hlt' : sv.getD 0 < 1 := hlt
    have h0 : sv.getD 0 = 0 := by omega
    simp only [run_migrations_native]
    simp only [h0]
    norm_num [LATEST_SCHEMA_VERSION, migrate_native_v0_to_v1]
  · rintro ⟨hm, sv, hs, hi⟩ hmeta hver
    cases hmeta
    cases hver
    simp [run_migrations_native, LATEST_SCHEMA_VERSION]
  · rintro ⟨hm, mv⟩ V hstore hver hlt
    cases hstore
    cases hver
    simp only [run_migrations_wasm, Option.getD]
    rw [if_pos hlt]
    simp
  · rintro ⟨hm, mv⟩ hlt
    have hlt' : mv.getD 0 < 1 := hlt
    have h0 : mv.getD 0 = 0 := by omega
    simp only [run_migrations_wasm]
    simp only [h0]
    norm_num [LATEST_SCHEMA_VERSION]
  · rintro ⟨hm, mv⟩ hstore hver
    cases hstore
    cases hver
    simp [run_migrations_wasm, LATEST_SCHEMA_VERSION]

/-- Witness for C4: a fresh native database (no metadata, no version) opens by
running the v0→v1 migration and ends at version `LATEST_SCHEMA_VERSION`. -/
theorem run_migrations_spec_witness :
    run_migrations_native ⟨false, none, false, false⟩
      = (migrate_native_v0_to_v1
          { (⟨false, none, false, false⟩ : NativeDb) with hasDbMeta := true }, none)
    ∧ (run_migrations_native ⟨false, none, false, false⟩).1.schemaVersion
      = some LATEST_SCHEMA_VERSION :=
  run_migrations_spec.2.1 ⟨false, none, false, false⟩ (by decide)

/-! ### C5: the encryption key must be exactly 32 bytes, checked before I/O -/

/-- The externally visible I/O actions `open` can begin with: connecting to
the SQLite file (native) or importing the key into `crypto.subtle` (wasm). -/
inductive IoAction
  | connect
  | importKey
deriving DecidableEq

/-- `EncryptedDb::open` (native), modelled up to its first I/O action: the
key-length check precedes everything, and on failure no I/O has happened (the
returned trace is the I/O performed).  A valid length proceeds to
`rusqlite::Connection::open`. -/
def open_native_guard (encryption_key : Bytes) : List IoAction × Except String Unit :=
  if encryption_key.length ≠ 32 then
    ([], .error ("encryption_key must be 32 bytes, got "
      ++ toString encryption_key.length))
  else
    ([IoAction.connect], .ok ())

/-- `EncryptedDb::open` (wasm), modelled up to its first I/O action: the same
key-length check precedes the `crypto.subtle` key import. -/
def open_wasm_guard (encryption_key : Bytes) : List IoAction × Except String Unit :=
  if encryption_key.length ≠ 32 then
    ([], .error ("encryption_key must be 32 bytes, got "
      ++ toString encryption_key.length))
  else
    ([IoAction.importKey], .ok ())

/-- C5: on both backends, a key whose length is not exactly 32 bytes makes
`open` return a configuration error with an empty I/O trace (no connection,
read or write has occurred); a 32-byte key passes the check and proceeds to
the store. -/
theorem open_rejects_bad_key_before_io (key : Bytes) :
    (key.length ≠ 32 →
      open_native_guard key =
        ([], .error ("encryption_key must be 32 bytes, got " ++ toString key.length))
      ∧ open_wasm_guard key =
        ([], .error ("encryption_key must be 32 bytes, got " ++ toString key.length)))
  ∧ (key.length = 32 →
      (open_native_guard key).2 = .ok () ∧ (open_wasm_guard key).2 = .ok ()) := by
  constructor
  · intro h
    exact ⟨by simp [open_native_guard, h], by simp [open_wasm_guard, h]⟩
  · intro h
    constructor <;> simp [open_native_guard, open_wasm_guard, h]

/-- Witness for C5: a 1-byte key is rejected with no I/O; a 32-byte key
passes the length check. -/
theorem open_rejects_bad_key_before_io_witness :
    (open_native_guard [0] =
        ([], .error ("encryption_key must be 32 bytes, got "
          ++ toString ([0] : Bytes).length))
      ∧ open_wasm_guard [0] =
        ([], .error ("encryption_key must be 32 bytes, got "
          ++ toString ([0] : Bytes).length)))
  ∧ ((open_native_guard (List.replicate 32 0)).2 = .ok ()
      ∧ (open_wasm_guard (List.replicate 32 0)).2 = .ok ()) :=
  ⟨(open_rejects_bad_key_before_io [0]).1 (by decide),
   (open_rejects_bad_key_before_io (List.replicate 32 0)).2 (by decide)⟩

/-! ### Snapshot key-value operations and the list encoding

`snapshot_storage.rs` stores list-valued entries as the `serde_json`
serialisation of a `Vec<Vec<u8>>`: a JSON array of arrays of decimal numbers.
Both the serialiser (`jsonListOfBytes`) and the deserialiser
(`parseListOfBytes`, over exactly the grammar serde_json emits for this type)
are modelled executably. -/

/-- `kv_write`: upsert into `current`. -/
def kv_write (s : SnapshotStorageProvider) (k v : Bytes) : SnapshotStorageProvider :=
  { s with current := insertKV s.current k v }

/-- `kv_read`: exact lookup in `current`. -/
def kv_read (s : SnapshotStorageProvider) (k : Bytes) : Option Bytes :=
  lookup s.current k

/-- `kv_delete`: remove from `current`. -/
def kv_delete (s : SnapshotStorageProvider) (k : Bytes) : SnapshotStorageProvider :=
  { s with current := eraseKV s.current k }

/-- `serde_json::to_vec` of a `Vec<Vec<u8>>`. -/
def jsonListOfBytes (ls : List Bytes) : Bytes :=
  91 :: List.intercalate [44] (ls.map jsonBytesArray) ++ [93]

def isDigit (b : Nat) : Bool :=
  decide (48 ≤ b) && decide (b ≤ 57)

def parseNatAcc : Bytes → Nat → Nat × Bytes
  | [], acc => (acc, [])
  | b :: rest, acc =>
      if isDigit b then parseNatAcc rest (acc * 10 + (b - 48)) else (acc, b :: rest)

/-- Parse a decimal number (at least one digit). -/
def parseNum : Bytes → Option (Nat × Bytes)
  | [] => none
  | b :: rest => if isDigit b then some (parseNatAcc (b :: rest) 0) else none

/-- Parse `num (, num)* ]` — the inside of a non-empty JSON number array. -/
def parseNumsLoop : Nat → Bytes → Option (List Nat × Bytes)
  | 0, _ => none
  | fuel + 1, l =>
      match parseNum l with
      | none => none
      | some (n, rest) =>
          match rest with
          | 44 :: rest' =>
              match parseNumsLoop fuel rest' with
              | none => none
              | some (ns, r) => some (n :: ns, r)
          | 93 :: rest' => some ([n], rest')
          | _ => none

/-- Parse one JSON array of numbers. -/
def parseByteArray : Bytes → Option (Bytes × Bytes)
  | 91 :: 93 :: rest => some ([], rest)
  | 91 :: rest => parseNumsLoop rest.length rest
  | _ => none

/-- Parse `array (, array)* ]` — the inside of a non-empty array of arrays. -/
def parseArraysLoop : Nat → Bytes → Option (List Bytes × Bytes)
  | 0, _ => none
  | fuel + 1, l =>
      match parseByteArray l with
      | none => none
      | some (a, rest) =>
          match rest with
          | 44 :: rest' =>
              match parseArraysLoop fuel rest' with
              | none => none
              | some (as, r) => some (a :: as, r)
          | 93 :: rest' => some ([a], rest')
          | _ => none

/-- `serde_json::from_slice::<Vec<Vec<u8>>>` on the canonical grammar that
`serde_json::to_vec` emits for this type; anything else is a
deserialisation error (`none`). -/
def parseListOfBytes (b : Bytes) : Option (List Bytes) :=
  match b with
  | 91 :: 93 :: rest => if rest = [] then some [] else none
  | 91 :: rest =>
      match parseArraysLoop rest.length rest with
      | some (as, []) => some as
      | _ => none
  | _ => none

/-- `Iterator::position`: index of the first occurrence of `item`. -/
def listPosition (item : Bytes) : List Bytes → Option Nat
  | [] => none
  | x :: rest => if x = item then some 0 else (listPosition item rest).map (· + 1)

/-- `SnapshotStorageProvider::read_list`: an absent composite key reads as the
empty list; a present value is parsed as the serialised list of item blobs
(the per-item `serde_json::from_slice::<Val>` of the source is the identity
here — items stay raw blobs). -/
def read_list (s : SnapshotStorageProvider) (storage_key : Bytes) :
    Except String (List Bytes) :=
  match kv_read s storage_key with
  | some bytes =>
      match parseListOfBytes bytes with
      | none => .error "Serialization error"
      | some raw => .ok raw
  | none => .ok []

/-- `SnapshotStorageProvider::own_leaf_nodes`: `read_list` under the
`OwnLeafNodes` label keyed by the serialised group id. -/
def own_leaf_nodes (s : SnapshotStorageProvider) (group_id : Bytes) :
    Except String (List Bytes) :=
  read_list s
    (build_key_serde jsonGroupId (bytesOfString "OwnLeafNodes") group_id CURRENT_VERSION)

/-- `SnapshotStorageProvider::queued_proposal_refs`: `read_list` under the
`ProposalQueueRefs` label keyed by the serialised group id. -/
def queued_proposal_refs (s : SnapshotStorageProvider) (group_id : Bytes) :
    Except String (List Bytes) :=
  read_list s
    (build_key_serde jsonGroupId (bytesOfString "ProposalQueueRefs") group_id
      CURRENT_VERSION)

/-- `DartStorageProvider::read_list`: the same logic, with the read forwarded
to the host-supplied asynchronous read callback. -/
def dart_read_list (read_fn : Bytes → Option Bytes) (storage_key : Bytes) :
    Except String (List Bytes) :=
  match read_fn storage_key with
  | some bytes =>
      match parseListOfBytes bytes with
      | none => .error "Serialization error"
      | some raw => .ok raw
  | none => .ok []

/-- `SnapshotStorageProvider::remove_from_list`: read the stored list (absent
key: done), drop the first occurrence of `item` if present, re-serialise and
write back. -/
def remove_from_list (s : SnapshotStorageProvider) (storage_key item : Bytes) :
    Except String SnapshotStorageProvider :=
  match kv_read s storage_key with
  | none => .ok s
  | some bytes =>
      match parseListOfBytes bytes with
      | none => .error "Serialization error"
      | some list =>
          let list2 :=
            match listPosition item list with
            | some pos => list.eraseIdx pos
            | none => list
          .ok (kv_write s storage_key (jsonListOfBytes list2))

/-! ### C8: delete is idempotent, removing an absent item is a no-op -/

theorem eraseKV_of_lookup_none {m : KVMap} {k : Bytes}
    (h : lookup m k = none) : eraseKV m k = m := by
  induction m with
  | nil => rfl
  | cons hd tl ih =>
      obtain ⟨k', v'⟩ := hd
      by_cases hk : k' = k
      · subst hk
        simp [lookup] at h
      · simp only [lookup] at h
        rw [if_neg hk] at h
        simp [eraseKV, hk, ih h]

theorem insertKV_of_lookup_eq {m : KVMap} {k v : Bytes}
    (h : lookup m k = some v) : insertKV m k v = m := by
  induction m with
  | nil => simp [lookup] at h
  | cons hd tl ih =>
      obtain ⟨k', v'⟩ := hd
      by_cases hk : k' = k
      · subst hk
        simp only [lookup, if_pos rfl] at h
        cases h
        simp [insertKV]
      · simp only [lookup] at h
        rw [if_neg hk] at h
        simp [insertKV, hk, ih h]

theorem listPosition_eq_none {item : Bytes} {l : List Bytes}
    (h : item ∉ l) : listPosition item l = none := by
  induction l with
  | nil => rfl
  | cons x rest ih =>
      have hx : x ≠ item := fun hxi => h (hxi ▸ List.mem_cons_self x rest)
      simp only [listPosition]
      rw [if_neg hx, ih (fun hm => h (List.mem_cons_of_mem x hm))]
      rfl

/-- C8: for every snapshot state, deleting a key absent from `current`
succeeds and leaves the snapshot unchanged (delete is idempotent), and
`remove_from_list` with an item absent from the stored list succeeds and
leaves the snapshot's key-value state unchanged (the list is re-serialised to
exactly the bytes already stored).  The stored value is a canonically
serialised list, as every list the provider writes is. -/
theorem delete_and_remove_absent_noop (s : SnapshotStorageProvider)
    (k storage_key item : Bytes) (l : List Bytes) (bytes : Bytes)
    (hdel : lookup s.current k = none)
    (hread : lookup s.current storage_key = some bytes)
    (hparse : parseListOfBytes bytes = some l)
    (hcanon : jsonListOfBytes l = bytes)
    (hitem : item ∉ l) :
    kv_delete s k = s ∧ remove_from_list s storage_key item = .ok s := by
  constructor
  · unfold kv_delete
    rw [eraseKV_of_lookup_none hdel]
  · simp only [remove_from_list, kv_read, hread, hparse, listPosition_eq_none hitem]
    unfold kv_write
    rw [hcanon, insertKV_of_lookup_eq hread]

/-- Witness for C8 at a concrete snapshot holding the serialised list
`[[1]]`. -/
theorem delete_and_remove_absent_noop_witness :
    kv_delete ⟨[], [([9], jsonListOfBytes [[1]])]⟩ [5]
      = ⟨[], [([9], jsonListOfBytes [[1]])]⟩
  ∧ remove_from_list ⟨[], [([9], jsonListOfBytes [[1]])]⟩ [9] [2]
      = .ok ⟨[], [([9], jsonListOfBytes [[1]])]⟩ :=
  delete_and_remove_absent_noop ⟨[], [([9], jsonListOfBytes [[1]])]⟩ [5] [9] [2]
    [[1]] (jsonListOfBytes [[1]]) (by decide) (by decide) (by decide) rfl (by decide)

/-! ### C10: reading an absent list entry yields the empty list -/

/-- C10: for every snapshot state and Dart read callback, when the composite
key is absent every list-reading operation returns success with the empty
list: `own_leaf_nodes` and `queued_proposal_refs` (whose keys are the
`OwnLeafNodes` / `ProposalQueueRefs` composite keys of the group), any read
through the snapshot `read_list`, and the callback-bridge `read_list`. -/
theorem read_list_absent_empty (s : SnapshotStorageProvider)
    (group_id storage_key : Bytes) (read_fn : Bytes → Option Bytes)
    (h1 : lookup s.current
      (build_key_serde jsonGroupId (bytesOfString "OwnLeafNodes") group_id
        CURRENT_VERSION) = none)
    (h2 : lookup s.current
      (build_key_serde jsonGroupId (bytesOfString "ProposalQueueRefs") group_id
        CURRENT_VERSION) = none)
    (h3 : lookup s.current storage_key = none)
    (h4 : read_fn storage_key = none) :
    own_leaf_nodes s group_id = .ok []
  ∧ queued_proposal_refs s group_id = .ok []
  ∧ read_list s storage_key = .ok []
  ∧ dart_read_list read_fn storage_key = .ok [] := by
  refine ⟨?_, ?_, ?_, ?_⟩
  · unfold own_leaf_nodes read_list
    rw [show kv_read s _ = none from h1]
  · unfold queued_proposal_refs read_list
    rw [show kv_read s _ = none from h2]
  · unfold read_list
    rw [show kv_read s storage_key = none from h3]
  · unfold dart_read_list
    rw [h4]

/-- Witness for C10 at the empty snapshot and an always-absent callback. -/
theorem read_list_absent_empty_witness :
    own_leaf_nodes ⟨[], []⟩ [3] = .ok []
  ∧ queued_proposal_refs ⟨[], []⟩ [3] = .ok []
  ∧ read_list ⟨[], []⟩ [4] = .ok []
  ∧ dart_read_list (fun _ => none) [4] = .ok [] :=
  read_list_absent_empty ⟨[], []⟩ [3] [4] (fun _ => none) rfl rfl rfl rfl

end OpenmlsDart
